import Mathlib

/-!
Verification of the grain-growth notebook (qstates_model.ipynb): a shallow
embedding of the functions generate_lattice and find_boundaries, together with
proofs and refutations of the specified properties.

Modelling conventions:
* The global NumPy pseudo-random generator is modelled as a stream
  rng : Nat -> Nat together with a draw counter that every consuming call
  advances; np.random.randint(0, SIZE) at counter k is rng k % SIZE, and
  np.random.choice(a) at counter k picks the entry of a at index
  rng k % a.size.
* The module-level constant SIZE of the notebook is a parameter N of the
  embedded functions (the notebook fixes it to 40); the size argument of
  generate_lattice is kept as a parameter that the body never reads, exactly
  as in the source, which indexes everything by the global SIZE.
* The unbounded rejection-sampling while-loop of origin selection is given
  explicit fuel counting loop iterations; exhausting the fuel yields none, so
  a run of the source that never terminates is a run on which every finite
  fuel returns none.
* NumPy float cell values are modelled as integers (every value the code
  stores is integral: the sentinel -1 and origin indices), and the real
  arithmetic of the basis transform is carried out in an arbitrary linearly
  ordered ring, so every theorem in particular applies to real-valued bases.
-/

namespace QStates

abbrev Coord := ℕ × ℕ
abbrev ZCoord := ℤ × ℤ
abbrev Cells := ℕ → ℕ → ℤ

variable {α : Type} [Ring α] [LinearOrder α]

/-- Notebook constant: lattice width and height. -/
def SIZE : ℕ := 40

/-- Notebook constant: number of initial crystal grains. -/
def N_GRAINS : ℕ := 10

/-- The 2x2 basis matrix argument of generate_lattice. Its entries live in an
arbitrary linearly ordered ring, covering the real entries of the NumPy array
(the theorems below hold for the real numbers) while letting witnesses
evaluate on integer instances. -/
structure Basis2 (α : Type) where
  a : α
  b : α
  c : α
  d : α

/-- The identity basis np.array([[1, 0], [0, 1]]) used in the notebook. -/
def basisId : Basis2 ℤ := ⟨1, 0, 0, 1⟩

/-- Product of the basis matrix with one displacement vector: one row of
cart_rel = np.matmul(basis, rel.T).T in the source. -/
def transform (B : Basis2 α) (v : ZCoord) : α × α :=
  (B.a * (v.1 : α) + B.b * (v.2 : α), B.c * (v.1 : α) + B.d * (v.2 : α))

/-- Squared Euclidean norm of a transformed displacement: one entry of
sq_dist = np.sum(cart_rel ** 2, axis=1). -/
def sqDist (B : Basis2 α) (v : ZCoord) : α :=
  (transform B v).1 ^ 2 + (transform B v).2 ^ 2

/-- One row of rel = np.tile(np.array([i, j]), (n_grains, 1)) - origins:
the displacement from the cell p to the origin o, as cell minus origin. -/
def rel (p o : Coord) : ZCoord :=
  ((p.1 : ℤ) - (o.1 : ℤ), (p.2 : ℤ) - (o.2 : ℤ))

/-- Entry r of the sq_dist array for cell p. -/
def sqDistIdx (B : Basis2 α) (origins : List Coord) (p : Coord) (r : ℕ) : α :=
  sqDist B (rel p (origins.getD r (0, 0)))

/-- The sq_dist array for cell p: squared transformed distance to each origin. -/
def sqDists (B : Basis2 α) (origins : List Coord) (p : Coord) : List α :=
  (List.range origins.length).map (sqDistIdx B origins p)

/-- ndarray.min of a list of rationals; none on the empty array, where NumPy
raises an exception. -/
def listMin : List α → Option α
  | [] => none
  | x :: xs =>
    match listMin xs with
    | none => some x
    | some m => some (min x m)

/-- np.where(sq_dist == sq_dist.min())[0]: the indices attaining the minimal
squared distance, in increasing order. -/
def tiedIndices (B : Basis2 α) (origins : List Coord) (p : Coord) : List ℕ :=
  match listMin (sqDists B origins p) with
  | none => []
  | some m => (List.range origins.length).filter (fun r => sqDistIdx B origins p r = m)

/-- np.random.choice over the nonempty array l, consuming the stream value r. -/
def chooseIdx (l : List ℕ) (r : ℕ) : ℕ := l.getD (r % l.length) 0

/-- Functional update of one lattice cell. -/
def setCell (c : Cells) (p : Coord) (v : ℤ) : Cells :=
  fun i j => if i = p.1 ∧ j = p.2 then v else c i j

/-- State of the origin-selection loop: the accepted origins in acceptance
order, the lattice under construction, and the rng draw counter. -/
structure OState where
  origins : List Coord
  cells : Cells
  k : ℕ

/-- Initial state: lattice = np.ones(shape=(SIZE, SIZE)) * -1 and no accepted
origins (o_count = 0). -/
def initState : OState := ⟨[], fun _ _ => -1, 0⟩

/-- Fueled embedding of the rejection-sampling loop
while o_count < n_grains of the source: draw a candidate
p = [randint(0, SIZE), randint(0, SIZE)]; if it is not already among the
accepted origins, record it as the next origin and label its lattice cell
with its acceptance index. N is the global SIZE. -/
def selectLoop (N n : ℕ) (rng : ℕ → ℕ) : ℕ → OState → Option OState
  | 0, st => if st.origins.length < n then none else some st
  | fuel + 1, st =>
    if st.origins.length < n then
      if (rng st.k % N, rng (st.k + 1) % N) ∈ st.origins then
        selectLoop N n rng fuel ⟨st.origins, st.cells, st.k + 2⟩
      else
        selectLoop N n rng fuel
          ⟨st.origins ++ [(rng st.k % N, rng (st.k + 1) % N)],
           setCell st.cells (rng st.k % N, rng (st.k + 1) % N) (st.origins.length : ℤ),
           st.k + 2⟩
    else some st

/-- Row-major enumeration of all lattice coordinates: the two nested loops
for i in range(SIZE): for j in range(SIZE). -/
def rowMajor (N : ℕ) : List Coord :=
  (List.range N).flatMap fun i => (List.range N).map fun j => (i, j)

/-- Body of the distance-fill pass at one cell p: if lattice[p] == -1, compute
the squared transformed distance to every origin and store a uniformly chosen
index among those attaining the minimum (np.random.choice on the argmin set),
advancing the draw counter; cells already labelled are skipped. The none case
is the ValueError NumPy raises when taking the min of an empty array. -/
def fillStep (B : Basis2 α) (origins : List Coord) (rng : ℕ → ℕ)
    (s : Cells × ℕ) (p : Coord) : Option (Cells × ℕ) :=
  if s.1 p.1 p.2 = -1 then
    match tiedIndices B origins p with
    | [] => none
    | t :: ts => some (setCell s.1 p ((chooseIdx (t :: ts) (rng s.2) : ℕ) : ℤ), s.2 + 1)
  else some s

/-- The distance-fill pass over a list of cells in row-major order. -/
def fillLoop (B : Basis2 α) (origins : List Coord) (rng : ℕ → ℕ) :
    List Coord → Cells × ℕ → Option (Cells × ℕ)
  | [], s => some s
  | p :: l, s =>
    match fillStep B origins rng s p with
    | none => none
    | some s' => fillLoop B origins rng l s'

/-- A labelled lattice: its side length (lattice.shape[0]) and cell values. -/
structure Lattice where
  size : ℕ
  cell : Cells

/-- Embedding of generate_lattice(size, n_grains, basis). N models the module
constant SIZE, which is what the body actually reads; the size argument is
unused exactly as in the source. The rng stream and the loop fuel make the
global randomness and the unbounded while-loop explicit. -/
def generate_lattice (N : ℕ) (size n_grains : ℕ) (B : Basis2 α)
    (rng : ℕ → ℕ) (fuel : ℕ) : Option Lattice :=
  (selectLoop N n_grains rng fuel initState).bind fun st =>
    (fillLoop B st.origins rng (rowMajor N) (st.cells, st.k)).map fun s => ⟨N, s.1⟩

/-- A neighbor function nn_f: candidate neighbor coordinates of a cell, with
integer components that may lie outside the lattice. -/
abbrev NNF := Coord → List ZCoord

/-- np.clip(x, 0, size - 1) on one integer component. -/
def clampZ (size : ℕ) (x : ℤ) : ℕ := min x.toNat (size - 1)

/-- Component-wise clamping of a candidate neighbor coordinate. -/
def clampCoord (size : ℕ) (q : ZCoord) : Coord := (clampZ size q.1, clampZ size q.2)

/-- Lexicographic order on coordinates, the row order of np.unique. -/
def lexLe (p q : Coord) : Bool :=
  p.1 < q.1 || (p.1 = q.1 && p.2 ≤ q.2)

/-- Insertion into a lexicographically sorted list. -/
def insertLex (q : Coord) : List Coord → List Coord
  | [] => [q]
  | x :: xs => if lexLe q x then q :: x :: xs else x :: insertLex q xs

/-- Lexicographic insertion sort on coordinate lists. -/
def sortLex : List Coord → List Coord
  | [] => []
  | x :: xs => insertLex x (sortLex xs)

/-- np.unique(rows, axis=0): sorted rows with duplicates removed. -/
def uniqueRows (l : List Coord) : List Coord := (sortLex l).dedup

/-- nn = np.unique(np.clip(nn_f(np.array([i, j])), 0, size - 1), axis=0):
the de-duplicated clamped neighbors of p actually scanned by find_boundaries. -/
def neighborsOf (size : ℕ) (f : NNF) (p : Coord) : List Coord :=
  uniqueRows ((f p).map (clampCoord size))

/-- Check of the inner loop of find_boundaries at cell p: some scanned
neighbor holds a different lattice value than p (the loop breaks at the first
such neighbor, which is observationally List.any). -/
def boundaryHit (L : Lattice) (f : NNF) (p : Coord) : Bool :=
  (neighborsOf L.size f p).any fun q => decide (L.cell q.1 q.2 ≠ L.cell p.1 p.2)

/-- Embedding of find_boundaries(lattice, nn_f): scan all cells in row-major
order and append those with a differently labelled scanned neighbor. -/
def find_boundaries (L : Lattice) (f : NNF) : List Coord :=
  (rowMajor L.size).foldl (fun acc p => if boundaryHit L f p then acc ++ [p] else acc) []

/-- find_boundaries run under the global-PRNG threading convention of the
other component: the body contains no np.random call, so the stream and the
draw counter pass through untouched. -/
def find_boundariesS (L : Lattice) (f : NNF) (rng : ℕ → ℕ) (k : ℕ) :
    List Coord × ℕ :=
  (find_boundaries L f, k)

/-- Clamped de-duplicated neighbor set as the specification words it (clamp
each component into the interval from 0 to size - 1, then de-duplicate). -/
def specNeighbors (size : ℕ) (f : NNF) (p : Coord) : List Coord :=
  ((f p).map (clampCoord size)).dedup

/-- Specification characterization of a boundary cell: the grain-id differs
from the grain-id of at least one clamped de-duplicated neighbor. -/
def IsBoundaryCell (L : Lattice) (f : NNF) (p : Coord) : Prop :=
  ∃ q ∈ specNeighbors L.size f p, L.cell q.1 q.2 ≠ L.cell p.1 p.2

instance (L : Lattice) (f : NNF) (p : Coord) : Decidable (IsBoundaryCell L f p) := by
  unfold IsBoundaryCell; infer_instance

/-- Specification form of the result of find_boundaries: the row-major list of
all coordinates, filtered by the boundary-cell characterization. -/
def boundarySpec (L : Lattice) (f : NNF) : List Coord :=
  (rowMajor L.size).filter (fun p => decide (IsBoundaryCell L f p))

/-- Membership of an index in the argmin set: the index is in range and
attains the minimal transformed squared distance among all origins. This is
the specification reading of the nearest-origin rule. -/
def IsArgminIdx (B : Basis2 α) (origins : List Coord) (p : Coord) (r : ℕ) : Prop :=
  r < origins.length ∧
    ∀ s, s < origins.length → sqDistIdx B origins p r ≤ sqDistIdx B origins p s

/-- The 4-neighbor (von Neumann) function passed to find_boundaries in the
notebook: p + [0, -1], p + [-1, 0], p + [0, 1], p + [1, 0]. -/
def vonNeumann : NNF := fun p =>
  [((p.1 : ℤ), (p.2 : ℤ) - 1), ((p.1 : ℤ) - 1, (p.2 : ℤ)),
   ((p.1 : ℤ), (p.2 : ℤ) + 1), ((p.1 : ℤ) + 1, (p.2 : ℤ))]

/-- Stream whose draws never change: candidate (0, 0) forever. -/
def rng0 : ℕ → ℕ := fun _ => 0

/-- Stream whose draws never change: candidate (1, 1) forever. -/
def rng1 : ℕ → ℕ := fun _ => 1

/-- Stream of the natural numbers in order. -/
def rngNat : ℕ → ℕ := fun k => k

/-- Stream producing the diagonal candidates (0, 0), (1, 1), (2, 2) and so on. -/
def rngHalf : ℕ → ℕ := fun k => k / 2

/-- Stream whose iteration t draws the candidate (t / 4, t % 4) on a lattice
of side 4: it enumerates all sixteen coordinates without repetition. -/
def rngGrid : ℕ → ℕ := fun k => if k % 2 = 0 then k / 2 / 4 else k / 2 % 4

/-- Concrete run of the origin selection on a 2 by 2 lattice with two grains
and the diagonal stream: it accepts the origins (0, 0) and (1, 1). -/
def stA : OState := (selectLoop 2 2 rngHalf 2 initState).getD initState

/-- Concrete lattice generated from the run stA (size argument 1, ignored by
the code, which builds a 2 by 2 lattice). -/
def LA : Lattice := (generate_lattice 2 1 2 basisId rngHalf 2).getD ⟨0, fun _ _ => 0⟩

/-- Concrete lattice generated with a single grain on a 2 by 2 lattice. -/
def LB : Lattice := (generate_lattice 2 1 1 basisId rng0 1).getD ⟨0, fun _ _ => 0⟩

/-- A 2 by 2 lattice still holding the unassigned sentinel -1 at (0, 0). -/
def LS : Lattice := ⟨2, fun i j => if i = 0 ∧ j = 0 then -1 else 0⟩

/-- A uniformly labelled 2 by 2 lattice: every cell holds the id 5. -/
def LU : Lattice := ⟨2, fun _ _ => 5⟩

/-- A neighbor function returning a coordinate far outside every lattice. -/
def fWild : NNF := fun _ => [(-5, 100)]


section ListHelpers

variable {α : Type}

/-- Indexing with a default inside the bounds lands in the list. -/
theorem getD_mem_of_lt (l : List α) (r : ℕ) (d : α) (h : r < l.length) :
    l.getD r d ∈ l := by
  induction l generalizing r with
  | nil => exact absurd h (by simp)
  | cons x xs ih =>
    cases r with
    | zero => simp
    | succ r =>
      rw [List.getD_cons_succ]
      exact List.mem_cons_of_mem x (ih r (by simpa using Nat.lt_of_succ_lt_succ h))

/-- Indexing with a default below the length of the first list ignores the
appended tail. -/
theorem getD_append_lt (l l' : List α) (r : ℕ) (d : α) (h : r < l.length) :
    (l ++ l').getD r d = l.getD r d := by
  induction l generalizing r with
  | nil => exact absurd h (by simp)
  | cons x xs ih =>
    cases r with
    | zero => simp
    | succ r =>
      simp only [List.cons_append, List.getD_cons_succ]
      exact ih r (by simpa using Nat.lt_of_succ_lt_succ h)

/-- Indexing a snoc at the old length yields the appended element. -/
theorem getD_append_self (l : List α) (x d : α) :
    (l ++ [x]).getD l.length d = x := by
  induction l with
  | nil => simp
  | cons y ys ih => simp [ih]

/-- Folding an append-if-true body is filtering. -/
theorem foldl_push_filter (P : α → Bool) :
    ∀ (l acc : List α),
      l.foldl (fun a p => if P p then a ++ [p] else a) acc = acc ++ l.filter P := by
  intro l
  induction l with
  | nil => intro acc; simp
  | cons p l ih =>
    intro acc
    cases h : P p <;> simp [List.foldl_cons, List.filter_cons, h, ih]

end ListHelpers

/-- listMin is none exactly on the empty array. -/
theorem listMin_eq_none {l : List α} : listMin l = none ↔ l = [] := by
  cases l with
  | nil => simp [listMin]
  | cons x xs =>
    simp only [listMin]
    cases listMin xs <;> simp

/-- The minimum of the array is a lower bound of all entries. -/
theorem listMin_le {l : List α} {m : α} (h : listMin l = some m) :
    ∀ y ∈ l, m ≤ y := by
  induction l generalizing m with
  | nil => simp [listMin] at h
  | cons x xs ih =>
    intro y hy
    simp only [listMin] at h
    cases hx : listMin xs with
    | none =>
      rw [hx] at h
      have hxs : xs = [] := listMin_eq_none.mp hx
      cases List.mem_cons.mp hy with
      | inl h1 => cases h; subst h1; exact le_refl _
      | inr h2 => rw [hxs] at h2; exact absurd h2 (by simp)
    | some m' =>
      rw [hx] at h
      cases h
      cases List.mem_cons.mp hy with
      | inl h1 => subst h1; exact min_le_left _ _
      | inr h2 => exact le_trans (min_le_right _ _) (ih hx y h2)

/-- Every index in the tied set attains the minimal transformed squared
distance among all origins. -/
theorem tiedIndices_spec {B : Basis2 α} {origins : List Coord} {p : Coord} {r : ℕ}
    (h : r ∈ tiedIndices B origins p) : IsArgminIdx B origins p r := by
  unfold tiedIndices at h
  cases hm : listMin (sqDists B origins p) with
  | none => rw [hm] at h; exact absurd h (by simp)
  | some m =>
    rw [hm] at h
    have h' := List.mem_filter.mp h
    have hr : r < origins.length := List.mem_range.mp h'.1
    have heq : sqDistIdx B origins p r = m := by simpa using h'.2
    refine ⟨hr, fun s hs => ?_⟩
    have hmem : sqDistIdx B origins p s ∈ sqDists B origins p :=
      List.mem_map.mpr ⟨s, List.mem_range.mpr hs, rfl⟩
    rw [heq]
    exact listMin_le hm _ hmem

/-- The chosen index is a member of the nonempty tied array. -/
theorem chooseIdx_mem (t : ℕ) (ts : List ℕ) (r : ℕ) :
    chooseIdx (t :: ts) r ∈ t :: ts := by
  apply getD_mem_of_lt
  exact Nat.mod_lt _ (by simp)

/-- Updating a cell writes the stored value there. -/
theorem setCell_same (c : Cells) (p : Coord) (v : ℤ) : setCell c p v p.1 p.2 = v := by
  simp [setCell]

/-- Updating a cell leaves every other cell unchanged. -/
theorem setCell_other (c : Cells) (p : Coord) (v : ℤ) (i j : ℕ)
    (h : ¬(i = p.1 ∧ j = p.2)) : setCell c p v i j = c i j := by
  simp [setCell, h]

/-- Membership in the row-major enumeration is exactly being in bounds. -/
theorem mem_rowMajor {N i j : ℕ} : (i, j) ∈ rowMajor N ↔ i < N ∧ j < N := by
  constructor
  · intro h
    rcases List.mem_flatMap.mp h with ⟨a, ha, hm⟩
    rcases List.mem_map.mp hm with ⟨b, hb, he⟩
    cases he
    exact ⟨List.mem_range.mp ha, List.mem_range.mp hb⟩
  · rintro ⟨hi, hj⟩
    exact List.mem_flatMap.mpr ⟨i, List.mem_range.mpr hi,
      List.mem_map.mpr ⟨j, List.mem_range.mpr hj, rfl⟩⟩

/-- The row-major enumeration has one entry per lattice cell. -/
theorem length_rowMajor (N : ℕ) : (rowMajor N).length = N * N := by
  have h : ∀ l : List ℕ,
      (l.flatMap fun i => (List.range N).map fun j => ((i, j) : Coord)).length
        = l.length * N := by
    intro l
    induction l with
    | nil => simp
    | cons x xs ih =>
      simp only [List.flatMap_cons, List.length_append, List.length_map,
        List.length_range, ih, List.length_cons]
      ring
  simpa [rowMajor] using h (List.range N)

/-- The row-major enumeration lists no coordinate twice. -/
theorem nodup_rowMajor (N : ℕ) : (rowMajor N).Nodup := by
  have h : rowMajor N = (List.range N) ×ˢ (List.range N) := rfl
  rw [h]
  exact List.Nodup.product (List.nodup_range N) (List.nodup_range N)


/-- Insertion into a sorted list preserves membership. -/
theorem mem_insertLex {x q : Coord} {l : List Coord} :
    x ∈ insertLex q l ↔ x = q ∨ x ∈ l := by
  induction l with
  | nil => simp [insertLex]
  | cons y ys ih =>
    unfold insertLex
    by_cases h : lexLe q y
    · simp [h, List.mem_cons]
    · simp only [h, if_neg, Bool.false_eq_true, not_false_eq_true, List.mem_cons, ih]
      tauto

/-- Sorting preserves membership. -/
theorem mem_sortLex {x : Coord} {l : List Coord} : x ∈ sortLex l ↔ x ∈ l := by
  induction l with
  | nil => simp [sortLex]
  | cons y ys ih => simp [sortLex, mem_insertLex, ih]

/-- np.unique preserves membership. -/
theorem mem_uniqueRows {x : Coord} {l : List Coord} : x ∈ uniqueRows l ↔ x ∈ l := by
  simp [uniqueRows, List.mem_dedup, mem_sortLex]

/-- The scanned neighbor set of find_boundaries has the same members as the
clamped image of the raw neighbor list. -/
theorem mem_neighborsOf {size : ℕ} {f : NNF} {p q : Coord} :
    q ∈ neighborsOf size f p ↔ q ∈ (f p).map (clampCoord size) := by
  simp [neighborsOf, mem_uniqueRows]

/-- The specification neighbor set has the same members as the clamped image
of the raw neighbor list. -/
theorem mem_specNeighbors {size : ℕ} {f : NNF} {p q : Coord} :
    q ∈ specNeighbors size f p ↔ q ∈ (f p).map (clampCoord size) := by
  simp [specNeighbors, List.mem_dedup]

/-- Clamping lands inside the lattice bounds whenever the side is positive. -/
theorem clampCoord_lt {size : ℕ} (hs : 0 < size) (z : ZCoord) :
    (clampCoord size z).1 < size ∧ (clampCoord size z).2 < size := by
  unfold clampCoord clampZ
  constructor <;> exact Nat.lt_of_le_of_lt (Nat.min_le_right _ _) (by omega)

/-- find_boundaries is the filter of the row-major enumeration by its own
neighbor check. -/
theorem find_boundaries_eq_filter (L : Lattice) (f : NNF) :
    find_boundaries L f = (rowMajor L.size).filter (boundaryHit L f) := by
  unfold find_boundaries
  rw [foldl_push_filter]
  simp

/-- The neighbor check of the source succeeds exactly on specification
boundary cells. -/
theorem boundaryHit_iff {L : Lattice} {f : NNF} {p : Coord} :
    boundaryHit L f p = true ↔ IsBoundaryCell L f p := by
  simp only [boundaryHit, List.any_eq_true, decide_eq_true_eq, IsBoundaryCell]
  constructor
  · rintro ⟨q, hq, hne⟩
    exact ⟨q, mem_specNeighbors.mpr (mem_neighborsOf.mp hq), hne⟩
  · rintro ⟨q, hq, hne⟩
    exact ⟨q, mem_neighborsOf.mpr (mem_specNeighbors.mp hq), hne⟩

/-- find_boundaries computes exactly the specification result. -/
theorem fb_eq_spec (L : Lattice) (f : NNF) :
    find_boundaries L f = boundarySpec L f := by
  rw [find_boundaries_eq_filter, boundarySpec]
  apply List.filter_congr
  intro p _
  by_cases hb : IsBoundaryCell L f p
  · rw [boundaryHit_iff.mpr hb]
    simp [hb]
  · have hf : boundaryHit L f p = false := by
      rw [← Bool.not_eq_true, boundaryHit_iff]
      exact hb
    rw [hf]
    simp [hb]


/-- Case analysis of one fill step: either the cell was already labelled and
nothing changes, or the cell held the sentinel and receives a tied index. -/
theorem fillStep_cases {B : Basis2 α} {origins : List Coord} {rng : ℕ → ℕ}
    {s s' : Cells × ℕ} {p : Coord} (h : fillStep B origins rng s p = some s') :
    (s.1 p.1 p.2 ≠ -1 ∧ s' = s) ∨
    (s.1 p.1 p.2 = -1 ∧ ∃ r ∈ tiedIndices B origins p,
      s'.1 = setCell s.1 p (r : ℤ)) := by
  unfold fillStep at h
  by_cases hc : s.1 p.1 p.2 = -1
  · rw [if_pos hc] at h
    cases ht : tiedIndices B origins p with
    | nil => rw [ht] at h; exact absurd h (by simp)
    | cons t ts =>
      rw [ht] at h
      cases h
      exact Or.inr ⟨hc, chooseIdx (t :: ts) (rng s.2), chooseIdx_mem t ts (rng s.2), rfl⟩
  · rw [if_neg hc] at h
    cases h
    exact Or.inl ⟨hc, rfl⟩

/-- The fill pass never rewrites a cell that is already labelled. -/
theorem fillLoop_preserve (B : Basis2 α) (origins : List Coord) (rng : ℕ → ℕ) :
    ∀ (l : List Coord) (s s' : Cells × ℕ), fillLoop B origins rng l s = some s' →
      ∀ i j, s.1 i j ≠ -1 → s'.1 i j = s.1 i j := by
  intro l
  induction l with
  | nil =>
    intro s s' h i j hij
    unfold fillLoop at h
    cases h
    rfl
  | cons p l ih =>
    intro s s' h i j hij
    unfold fillLoop at h
    cases hstep : fillStep B origins rng s p with
    | none => rw [hstep] at h; exact absurd h (by simp)
    | some s1 =>
      rw [hstep] at h
      rcases fillStep_cases hstep with ⟨_, rfl⟩ | ⟨hsent, r, _, hset⟩
      · exact ih _ _ h i j hij
      · have hne : ¬(i = p.1 ∧ j = p.2) := by
          rintro ⟨rfl, rfl⟩
          exact hij hsent
        have h1 : s1.1 i j = s.1 i j := by rw [hset, setCell_other _ _ _ _ _ hne]
        rw [← h1] at hij ⊢
        exact ih _ _ h i j hij

/-- After the fill pass, every cell either kept its incoming value or holds an
index from the tied (argmin) set of that cell. -/
theorem fillLoop_value (B : Basis2 α) (origins : List Coord) (rng : ℕ → ℕ) :
    ∀ (l : List Coord) (s s' : Cells × ℕ), fillLoop B origins rng l s = some s' →
      ∀ i j, s'.1 i j = s.1 i j ∨
        ∃ r ∈ tiedIndices B origins (i, j), s'.1 i j = (r : ℤ) := by
  intro l
  induction l with
  | nil =>
    intro s s' h i j
    unfold fillLoop at h
    cases h
    exact Or.inl rfl
  | cons p l ih =>
    intro s s' h i j
    unfold fillLoop at h
    cases hstep : fillStep B origins rng s p with
    | none => rw [hstep] at h; exact absurd h (by simp)
    | some s1 =>
      rw [hstep] at h
      rcases fillStep_cases hstep with ⟨_, rfl⟩ | ⟨_, r, hr, hset⟩
      · exact ih _ _ h i j
      · rcases ih _ _ h i j with h1 | h1
        · rw [h1, hset]
          by_cases hp : i = p.1 ∧ j = p.2
        
          · rcases hp with ⟨rfl, rfl⟩
            refine Or.inr ⟨r, ?_, ?_⟩
            · simpa using hr
            · exact setCell_same _ _ _
          · rw [setCell_other _ _ _ _ _ hp]
            exact Or.inl rfl
        · exact Or.inr h1

/-- After the fill pass over a list of cells, no listed cell still holds the
sentinel. -/
theorem fillLoop_no_sentinel (B : Basis2 α) (origins : List Coord) (rng : ℕ → ℕ) :
    ∀ (l : List Coord) (s s' : Cells × ℕ), fillLoop B origins rng l s = some s' →
      ∀ p ∈ l, s'.1 p.1 p.2 ≠ -1 := by
  intro l
  induction l with
  | nil =>
    intro s s' _ p hp
    exact absurd hp (by simp)
  | cons q l ih =>
    intro s s' h p hp
    unfold fillLoop at h
    cases hstep : fillStep B origins rng s q with
    | none => rw [hstep] at h; exact absurd h (by simp)
    | some s1 =>
      rw [hstep] at h
      rcases List.mem_cons.mp hp with rfl | hpl
      · have h1 : s1.1 p.1 p.2 ≠ -1 := by
          rcases fillStep_cases hstep with ⟨hne, rfl⟩ | ⟨_, r, _, hset⟩
          · exact hne
          · rw [hset, setCell_same]
            intro habs
            omega
        rw [fillLoop_preserve B origins rng l s1 s' h p.1 p.2 h1]
        exact h1
      · exact ih _ _ h p hpl

/-- Origin selection preserves the invariant that unaccepted cells hold the
sentinel. -/
theorem selectLoop_sentinel (N n : ℕ) (rng : ℕ → ℕ) :
    ∀ (fuel : ℕ) (st st' : OState), selectLoop N n rng fuel st = some st' →
      (∀ q : Coord, q ∉ st.origins → st.cells q.1 q.2 = -1) →
      ∀ q : Coord, q ∉ st'.origins → st'.cells q.1 q.2 = -1 := by
  intro fuel
  induction fuel with
  | zero =>
    intro st st' h hinv
    unfold selectLoop at h
    by_cases hc : st.origins.length < n
    · rw [if_pos hc] at h; exact absurd h (by simp)
    · rw [if_neg hc] at h; cases h; exact hinv
  | succ fuel ih =>
    intro st st' h hinv
    unfold selectLoop at h
    by_cases hc : st.origins.length < n
    · rw [if_pos hc] at h
      by_cases hm : ((rng st.k % N, rng (st.k + 1) % N) : Coord) ∈ st.origins
      · rw [if_pos hm] at h
        exact ih _ _ h hinv
      · rw [if_neg hm] at h
        refine ih _ _ h ?_
        intro q hq
        simp only [List.mem_append, List.mem_singleton, not_or] at hq
        show setCell st.cells _ _ q.1 q.2 = -1
        rw [setCell_other]
        · exact hinv q hq.1
        · intro hqp
          exact hq.2 (Prod.ext hqp.1 hqp.2)
    · rw [if_neg hc] at h; cases h; exact hinv

/-- Origin selection preserves the invariant that the cell of the origin with
acceptance index r is labelled r. -/
theorem selectLoop_labels (N n : ℕ) (rng : ℕ → ℕ) :
    ∀ (fuel : ℕ) (st st' : OState), selectLoop N n rng fuel st = some st' →
      st.origins.Nodup →
      (∀ r, r < st.origins.length →
        st.cells (st.origins.getD r (0, 0)).1 (st.origins.getD r (0, 0)).2 = (r : ℤ)) →
      ∀ r, r < st'.origins.length →
        st'.cells (st'.origins.getD r (0, 0)).1 (st'.origins.getD r (0, 0)).2 = (r : ℤ) := by
  intro fuel
  induction fuel with
  | zero =>
    intro st st' h _ hinv
    unfold selectLoop at h
    by_cases hc : st.origins.length < n
    · rw [if_pos hc] at h; exact absurd h (by simp)
    · rw [if_neg hc] at h; cases h; exact hinv
  | succ fuel ih =>
    intro st st' h hnd hinv
    unfold selectLoop at h
    by_cases hc : st.origins.length < n
    · rw [if_pos hc] at h
      by_cases hm : ((rng st.k % N, rng (st.k + 1) % N) : Coord) ∈ st.origins
      · rw [if_pos hm] at h
        exact ih _ _ h hnd hinv
      · rw [if_neg hm] at h
        refine ih _ _ h ?_ ?_
        · exact List.Nodup.append hnd (List.nodup_singleton _)
            (by intro a ha hb; simp at hb; subst hb; exact hm ha)
        · intro r hr
          simp only [List.length_append, List.length_singleton] at hr
          rcases Nat.lt_succ_iff_lt_or_eq.mp hr with hlt | heq
          · have hg : (st.origins ++ [((rng st.k % N, rng (st.k + 1) % N) : Coord)]).getD r (0, 0)
                = st.origins.getD r (0, 0) := getD_append_lt _ _ r (0, 0) hlt
            show setCell st.cells _ _ _ _ = (r : ℤ)
            rw [hg, setCell_other]
            · exact hinv r hlt
            · intro hab
              have : st.origins.getD r (0, 0) = ((rng st.k % N, rng (st.k + 1) % N) : Coord) :=
                Prod.ext hab.1 hab.2
              rw [← this] at hm
              exact hm (getD_mem_of_lt _ r (0, 0) hlt)
          · subst heq
            have hg : (st.origins ++ [((rng st.k % N, rng (st.k + 1) % N) : Coord)]).getD
                st.origins.length (0, 0) = ((rng st.k % N, rng (st.k + 1) % N) : Coord) :=
              getD_append_self _ _ (0, 0)
            show setCell st.cells _ _ _ _ = _
            rw [hg, setCell_same]
    · rw [if_neg hc] at h; cases h; exact hinv

/-- Origin selection preserves distinctness of the accepted origins. -/
theorem selectLoop_nodup (N n : ℕ) (rng : ℕ → ℕ) :
    ∀ (fuel : ℕ) (st st' : OState), selectLoop N n rng fuel st = some st' →
      st.origins.Nodup → st'.origins.Nodup := by
  intro fuel
  induction fuel with
  | zero =>
    intro st st' h hnd
    unfold selectLoop at h
    by_cases hc : st.origins.length < n
    · rw [if_pos hc] at h; exact absurd h (by simp)
    · rw [if_neg hc] at h; cases h; exact hnd
  | succ fuel ih =>
    intro st st' h hnd
    unfold selectLoop at h
    by_cases hc : st.origins.length < n
    · rw [if_pos hc] at h
      by_cases hm : ((rng st.k % N, rng (st.k + 1) % N) : Coord) ∈ st.origins
      · rw [if_pos hm] at h
        exact ih _ _ h hnd
      · rw [if_neg hm] at h
        exact ih _ _ h (List.Nodup.append hnd (List.nodup_singleton _)
          (by intro a ha hb; simp at hb; subst hb; exact hm ha))
    · rw [if_neg hc] at h; cases h; exact hnd

/-- Origin selection keeps all accepted coordinates inside the lattice. -/
theorem selectLoop_bounds (N n : ℕ) (rng : ℕ → ℕ) (hN : 0 < N) :
    ∀ (fuel : ℕ) (st st' : OState), selectLoop N n rng fuel st = some st' →
      (∀ q ∈ st.origins, q.1 < N ∧ q.2 < N) →
      ∀ q ∈ st'.origins, q.1 < N ∧ q.2 < N := by
  intro fuel
  induction fuel with
  | zero =>
    intro st st' h hb
    unfold selectLoop at h
    by_cases hc : st.origins.length < n
    · rw [if_pos hc] at h; exact absurd h (by simp)
    · rw [if_neg hc] at h; cases h; exact hb
  | succ fuel ih =>
    intro st st' h hb
    unfold selectLoop at h
    by_cases hc : st.origins.length < n
    · rw [if_pos hc] at h
      by_cases hm : ((rng st.k % N, rng (st.k + 1) % N) : Coord) ∈ st.origins
      · rw [if_pos hm] at h
        exact ih _ _ h hb
      · rw [if_neg hm] at h
        refine ih _ _ h ?_
        intro q hq
        rcases List.mem_append.mp hq with h1 | h1
        · exact hb q h1
        · simp only [List.mem_singleton] at h1
          subst h1
          exact ⟨Nat.mod_lt _ hN, Nat.mod_lt _ hN⟩
    · rw [if_neg hc] at h; cases h; exact hb

/-- When origin selection succeeds from a state with at most n origins, it
stops with exactly n accepted origins. -/
theorem selectLoop_length (N n : ℕ) (rng : ℕ → ℕ) :
    ∀ (fuel : ℕ) (st st' : OState), selectLoop N n rng fuel st = some st' →
      st.origins.length ≤ n → st'.origins.length = n := by
  intro fuel
  induction fuel with
  | zero =>
    intro st st' h hle
    unfold selectLoop at h
    by_cases hc : st.origins.length < n
    · rw [if_pos hc] at h; exact absurd h (by simp)
    · rw [if_neg hc] at h; cases h; omega
  | succ fuel ih =>
    intro st st' h hle
    unfold selectLoop at h
    by_cases hc : st.origins.length < n
    · rw [if_pos hc] at h
      by_cases hm : ((rng st.k % N, rng (st.k + 1) % N) : Coord) ∈ st.origins
      · rw [if_pos hm] at h
        exact ih _ _ h hle
      · rw [if_neg hm] at h
        refine ih _ _ h ?_
        simp only [List.length_append, List.length_singleton]
        omega
    · rw [if_neg hc] at h; cases h; omega

/-- Origin selection preserves the invariant that every lattice cell holds
either the sentinel or an index of an already accepted origin. -/
theorem selectLoop_cells_range (N n : ℕ) (rng : ℕ → ℕ) :
    ∀ (fuel : ℕ) (st st' : OState), selectLoop N n rng fuel st = some st' →
      (∀ i j, st.cells i j = -1 ∨
        (0 ≤ st.cells i j ∧ st.cells i j < (st.origins.length : ℤ))) →
      ∀ i j, st'.cells i j = -1 ∨
        (0 ≤ st'.cells i j ∧ st'.cells i j < (st'.origins.length : ℤ)) := by
  intro fuel
  induction fuel with
  | zero =>
    intro st st' h hinv
    unfold selectLoop at h
    by_cases hc : st.origins.length < n
    · rw [if_pos hc] at h; exact absurd h (by simp)
    · rw [if_neg hc] at h; cases h; exact hinv
  | succ fuel ih =>
    intro st st' h hinv
    unfold selectLoop at h
    by_cases hc : st.origins.length < n
    · rw [if_pos hc] at h
      by_cases hm : ((rng st.k % N, rng (st.k + 1) % N) : Coord) ∈ st.origins
      · rw [if_pos hm] at h
        exact ih _ _ h hinv
      · rw [if_neg hm] at h
        refine ih _ _ h ?_
        intro i j
        dsimp only
        by_cases hp : i = (rng st.k % N) ∧ j = (rng (st.k + 1) % N)
        · right
          rcases hp with ⟨rfl, rfl⟩
          rw [setCell_same]
          constructor
          · exact Int.natCast_nonneg _
          · simp only [List.length_append, List.length_singleton]
            push_cast
            omega
        · rw [setCell_other _ _ _ _ _ hp]
          rcases hinv i j with h1 | h1
          · exact Or.inl h1
          · right
            refine ⟨h1.1, lt_of_lt_of_le h1.2 ?_⟩
            simp only [List.length_append, List.length_singleton]
            push_cast
            omega
    · rw [if_neg hc] at h; cases h; exact hinv

/-- With more grains requested than there are lattice cells, the rejection
sampling loop can never accumulate enough distinct origins: every amount of
fuel is exhausted, for every stream. This is exactly the non-terminating run
of the source. -/
theorem selectLoop_none_of_overfull (N n : ℕ) (rng : ℕ → ℕ) (hN : 0 < N)
    (hn : N * N < n) :
    ∀ (fuel : ℕ) (st : OState), st.origins.Nodup →
      (∀ q ∈ st.origins, q.1 < N ∧ q.2 < N) →
      selectLoop N n rng fuel st = none := by
  have hlen : ∀ st : OState, st.origins.Nodup →
      (∀ q ∈ st.origins, q.1 < N ∧ q.2 < N) → st.origins.length < n := by
    intro st hnd hb
    have hsub : st.origins.toFinset ⊆ Finset.range N ×ˢ Finset.range N := by
      intro q hq
      rcases hb q (List.mem_toFinset.mp hq) with ⟨h1, h2⟩
      simp only [Finset.mem_product, Finset.mem_range]
      exact ⟨h1, h2⟩
    have hcard := Finset.card_le_card hsub
    rw [List.toFinset_card_of_nodup hnd] at hcard
    have hNN : (Finset.range N ×ˢ Finset.range N).card = N * N := by
      simp [Finset.card_product]
    omega
  intro fuel
  induction fuel with
  | zero =>
    intro st hnd hb
    unfold selectLoop
    rw [if_pos (hlen st hnd hb)]
  | succ fuel ih =>
    intro st hnd hb
    unfold selectLoop
    rw [if_pos (hlen st hnd hb)]
    by_cases hm : ((rng st.k % N, rng (st.k + 1) % N) : Coord) ∈ st.origins
    · rw [if_pos hm]
      exact ih _ hnd hb
    · rw [if_neg hm]
      apply ih
      · exact List.Nodup.append hnd (List.nodup_singleton _)
          (by intro a ha hb2; simp at hb2; subst hb2; exact hm ha)
      · intro q hq
        rcases List.mem_append.mp hq with h1 | h1
        · exact hb q h1
        · simp only [List.mem_singleton] at h1
          subst h1
          exact ⟨Nat.mod_lt _ hN, Nat.mod_lt _ hN⟩


/-- Decomposition of a successful generate_lattice run into its two phases. -/
theorem generate_lattice_cases {N size n : ℕ} {B : Basis2 α} {rng : ℕ → ℕ}
    {fuel : ℕ} {L : Lattice} (h : generate_lattice N size n B rng fuel = some L) :
    ∃ st s, selectLoop N n rng fuel initState = some st ∧
      fillLoop B st.origins rng (rowMajor N) (st.cells, st.k) = some s ∧
      L = ⟨N, s.1⟩ := by
  unfold generate_lattice at h
  cases hsel : selectLoop N n rng fuel initState with
  | none => rw [hsel] at h; simp at h
  | some st =>
    rw [hsel] at h
    simp only [Option.some_bind] at h
    cases hfill : fillLoop B st.origins rng (rowMajor N) (st.cells, st.k) with
    | none => rw [hfill] at h; simp at h
    | some s =>
      rw [hfill] at h
      have h2 : some (⟨N, s.1⟩ : Lattice) = some L := h
      exact ⟨st, s, rfl, hfill, (Option.some.inj h2).symm⟩

/-- Claim C1 (code_bug evidence): generate_lattice contains no grain-count
validation at all. First conjunct: with the notebook constants SIZE = 40 and
N_GRAINS = 10, origin selection simply succeeds. Second conjunct: on a module
constant 4, the full call generate_lattice(size = 3, n_grains = 10) returns a
lattice even though n_grains = 10 exceeds size * size = 9, because the body
reads the global SIZE instead of size: no InvalidGrainCount condition is ever
reported. Third conjunct: when n_grains really exceeds the global cell count
SIZE * SIZE, the rejection loop never terminates (none for every fuel and
every stream) instead of failing explicitly. -/
theorem C1_no_invalid_grain_count :
    (selectLoop SIZE N_GRAINS rngNat 10 initState).isSome = true ∧
    (generate_lattice 4 3 10 basisId rngGrid 12).isSome = true ∧
    ∀ (rng : ℕ → ℕ) (fuel : ℕ),
      selectLoop SIZE (SIZE * SIZE + 1) rng fuel initState = none := by
  refine ⟨by decide, by decide, fun rng fuel => ?_⟩
  apply selectLoop_none_of_overfull SIZE (SIZE * SIZE + 1) rng (by decide) (by decide)
  · exact List.nodup_nil
  · intro q hq
    exact absurd hq (by simp [initState])

/-- Claim C2 counterexample: on a module with lattice constant SIZE = 2, the
valid input size = 1, n_grains = 1 yields a lattice of shape 2 x 2 rather
than size x size = 1 x 1: the code reads the global SIZE, not its size
argument. -/
theorem C2_counterexample :
    ((generate_lattice 2 1 1 basisId rng0 1).map Lattice.size) = some 2 ∧
    (2 : ℕ) ≠ 1 * 1 := by
  exact ⟨rfl, by decide⟩

/-- Claim C2 (amended): on every successful run the returned lattice has
shape N x N where N is the module constant SIZE the code actually reads (not
the size argument), and every cell holds an integer grain id at least 0 and
below n_grains; in particular no cell still holds the sentinel -1. -/
theorem C2_lattice_shape_and_cells (N size n : ℕ) (B : Basis2 α) (rng : ℕ → ℕ)
    (fuel : ℕ) (L : Lattice) (i j : ℕ)
    (hgen : generate_lattice N size n B rng fuel = some L)
    (hi : i < N) (hj : j < N) :
    L.size = N ∧ 0 ≤ L.cell i j ∧ L.cell i j < (n : ℤ) := by
  obtain ⟨st, s, hsel, hfill, rfl⟩ := generate_lattice_cases hgen
  refine ⟨rfl, ?_⟩
  dsimp only
  have hlen : st.origins.length = n :=
    selectLoop_length N n rng fuel initState st hsel (by simp [initState])
  have hmem : ((i, j) : Coord) ∈ rowMajor N := mem_rowMajor.mpr ⟨hi, hj⟩
  have hns : s.1 i j ≠ -1 :=
    fillLoop_no_sentinel B st.origins rng (rowMajor N) _ s hfill (i, j) hmem
  have hrange :=
    selectLoop_cells_range N n rng fuel initState st hsel (by intro a b; left; rfl) i j
  rw [hlen] at hrange
  rcases fillLoop_value B st.origins rng (rowMajor N) _ s hfill i j with h1 | ⟨r, hr, h1⟩
  · rw [h1] at hns ⊢
    rcases hrange with h2 | h2
    · exact absurd h2 hns
    · exact h2
  · rw [h1]
    have hrlt := (tiedIndices_spec hr).1
    rw [hlen] at hrlt
    constructor
    · exact Int.natCast_nonneg r
    · exact_mod_cast hrlt

/-- Witness for C2: a concrete successful run on module constant 2. -/
theorem C2_witness :
    LB.size = 2 ∧ 0 ≤ LB.cell 0 1 ∧ LB.cell 0 1 < (1 : ℤ) :=
  C2_lattice_shape_and_cells 2 1 1 basisId rng0 1 LB 0 1 rfl (by decide) (by decide)

/-- Claim C3: every non-origin cell of a lattice returned by generate_lattice
is assigned a member of the argmin set: an origin index attaining the minimal
squared Euclidean norm of the basis-transformed displacement to the cell,
among all origins. -/
theorem C3_nearest_origin (N size n : ℕ) (B : Basis2 α) (rng : ℕ → ℕ)
    (fuel : ℕ) (st : OState) (L : Lattice) (i j : ℕ)
    (hsel : selectLoop N n rng fuel initState = some st)
    (hgen : generate_lattice N size n B rng fuel = some L)
    (hi : i < N) (hj : j < N) (hno : ((i, j) : Coord) ∉ st.origins) :
    0 ≤ L.cell i j ∧ IsArgminIdx B st.origins (i, j) (L.cell i j).toNat := by
  obtain ⟨st', s, hsel', hfill, rfl⟩ := generate_lattice_cases hgen
  have hst : st' = st := by
    rw [hsel] at hsel'
    exact (Option.some.inj hsel').symm
  subst hst
  dsimp only
  have hsent : st'.cells i j = -1 :=
    selectLoop_sentinel N n rng fuel initState st' hsel (by intro q _; rfl) (i, j) hno
  have hmem : ((i, j) : Coord) ∈ rowMajor N := mem_rowMajor.mpr ⟨hi, hj⟩
  have hns : s.1 i j ≠ -1 :=
    fillLoop_no_sentinel B st'.origins rng (rowMajor N) _ s hfill (i, j) hmem
  rcases fillLoop_value B st'.origins rng (rowMajor N) _ s hfill i j with h1 | ⟨r, hr, h1⟩
  · rw [h1] at hns
    exact absurd hsent hns
  · rw [h1]
    refine ⟨Int.natCast_nonneg r, ?_⟩
    simpa using tiedIndices_spec hr

/-- Witness for C3 at the concrete run stA and lattice LA: the non-origin
cell (0, 1) receives an argmin index. -/
theorem C3_witness :
    0 ≤ LA.cell 0 1 ∧ IsArgminIdx basisId stA.origins (0, 1) (LA.cell 0 1).toNat :=
  C3_nearest_origin 2 1 2 basisId rngHalf 2 stA LA 0 1 rfl rfl
    (by decide) (by decide) (by decide)

/-- Claim C4 counterexample: with module constant SIZE = 2 and user argument
size = 1, generate_lattice(size = 1, n_grains = 1) accepts the origin (1, 1),
whose components are not below size = 1: origins are drawn from the global
SIZE range, not from the size argument. -/
theorem C4_counterexample :
    ((selectLoop 2 1 rng1 1 initState).map OState.origins) = some [(1, 1)] ∧
    (generate_lattice 2 1 1 basisId rng1 1).isSome = true ∧
    ¬((1 : ℕ) < 1) :=
  ⟨rfl, rfl, by decide⟩

/-- Claim C4 (amended): after origin selection the n_grains accepted origins
are pairwise distinct integer pairs inside the global range below the module
constant SIZE that the code reads (not the size argument), and in the
returned lattice each origin cell carries exactly its 0-based acceptance
index. -/
theorem C4_origins_distinct_and_labelled (N size n : ℕ) (B : Basis2 α)
    (rng : ℕ → ℕ) (fuel : ℕ) (st : OState) (L : Lattice) (hN : 0 < N)
    (hsel : selectLoop N n rng fuel initState = some st)
    (hgen : generate_lattice N size n B rng fuel = some L) :
    st.origins.length = n ∧ st.origins.Nodup ∧
    (∀ q ∈ st.origins, q.1 < N ∧ q.2 < N) ∧
    ∀ r, r < n →
      L.cell (st.origins.getD r (0, 0)).1 (st.origins.getD r (0, 0)).2 = (r : ℤ) := by
  obtain ⟨st', s, hsel', hfill, rfl⟩ := generate_lattice_cases hgen
  have hst : st' = st := by
    rw [hsel] at hsel'
    exact (Option.some.inj hsel').symm
  subst hst
  have hlen : st'.origins.length = n :=
    selectLoop_length N n rng fuel initState st' hsel (by simp [initState])
  have hnd : st'.origins.Nodup :=
    selectLoop_nodup N n rng fuel initState st' hsel List.nodup_nil
  have hb : ∀ q ∈ st'.origins, q.1 < N ∧ q.2 < N :=
    selectLoop_bounds N n rng hN fuel initState st' hsel
      (by intro q hq; exact absurd hq (by simp [initState]))
  refine ⟨hlen, hnd, hb, ?_⟩
  intro r hr
  dsimp only
  have hr' : r < st'.origins.length := by omega
  have hcell : st'.cells (st'.origins.getD r (0, 0)).1 (st'.origins.getD r (0, 0)).2 = (r : ℤ) :=
    selectLoop_labels N n rng fuel initState st' hsel List.nodup_nil
      (by intro r0 h0; exact absurd h0 (by simp [initState])) r hr'
  have hne : st'.cells (st'.origins.getD r (0, 0)).1 (st'.origins.getD r (0, 0)).2 ≠ -1 := by
    rw [hcell]
    omega
  rw [fillLoop_preserve B st'.origins rng (rowMajor N) _ s hfill _ _ hne]
  exact hcell

/-- Witness for C4 at the concrete run stA and lattice LA. -/
theorem C4_witness :
    stA.origins.Nodup ∧ LA.cell 0 0 = 0 ∧ LA.cell 1 1 = 1 := by
  have h := C4_origins_distinct_and_labelled 2 1 2 basisId rngHalf 2 stA LA
    (by decide) rfl rfl
  exact ⟨h.2.1, h.2.2.2 0 (by decide), h.2.2.2 1 (by decide)⟩

/-- Claim C5: find_boundaries returns exactly the coordinates whose grain id
differs from that of at least one clamped de-duplicated neighbor, each listed
exactly once, in row-major scan order: it equals the row-major filter by the
specification predicate, is duplicate-free, and membership matches the
predicate. -/
theorem C5_boundaries_exact (L : Lattice) (f : NNF) :
    find_boundaries L f = boundarySpec L f ∧
    (find_boundaries L f).Nodup ∧
    ∀ p : Coord, p ∈ find_boundaries L f ↔ p ∈ rowMajor L.size ∧ IsBoundaryCell L f p := by
  refine ⟨fb_eq_spec L f, ?_, ?_⟩
  · rw [fb_eq_spec]
    exact (nodup_rowMajor L.size).filter _
  · intro p
    rw [fb_eq_spec]
    unfold boundarySpec
    rw [List.mem_filter]
    simp

/-- Claim C6 counterexample: on the lattice LS that still holds the sentinel
-1 at (0, 0), find_boundaries does not fail with any InvalidLattice
condition: it returns an ordinary boundary list. -/
theorem C6_counterexample :
    find_boundaries LS vonNeumann = [(0, 0), (0, 1), (1, 0)] := by
  decide

/-- Claim C6 (amended): find_boundaries performs no input validation: on any
lattice still containing the unassigned sentinel -1 it does not fail but
returns the ordinary boundary computation, treating -1 like any other label
(the NumPy array embedding makes a non-rectangular input unrepresentable). -/
theorem C6_no_validation (L : Lattice) (f : NNF)
    (h : ∃ i < L.size, ∃ j < L.size, L.cell i j = -1) :
    find_boundaries L f = boundarySpec L f :=
  fb_eq_spec L f

/-- Witness for C6 on the concrete sentinel lattice LS. -/
theorem C6_witness :
    (∃ i < LS.size, ∃ j < LS.size, LS.cell i j = -1) ∧
    find_boundaries LS vonNeumann = boundarySpec LS vonNeumann :=
  ⟨by decide, C6_no_validation LS vonNeumann (by decide)⟩

/-- Claim C7: with n_grains = 1, every cell of the returned lattice holds the
id 0: the origin cell by its acceptance label, and every other cell because
the argmin set over a single origin is the singleton index 0. -/
theorem C7_single_grain (N size : ℕ) (B : Basis2 α) (rng : ℕ → ℕ) (fuel : ℕ)
    (L : Lattice) (i j : ℕ)
    (hgen : generate_lattice N size 1 B rng fuel = some L)
    (hi : i < N) (hj : j < N) : L.cell i j = 0 := by
  obtain ⟨st, s, hsel, hfill, rfl⟩ := generate_lattice_cases hgen
  dsimp only
  have hlen : st.origins.length = 1 :=
    selectLoop_length N 1 rng fuel initState st hsel (by simp [initState])
  have hmem : ((i, j) : Coord) ∈ rowMajor N := mem_rowMajor.mpr ⟨hi, hj⟩
  have hns : s.1 i j ≠ -1 :=
    fillLoop_no_sentinel B st.origins rng (rowMajor N) _ s hfill (i, j) hmem
  have hrange :=
    selectLoop_cells_range N 1 rng fuel initState st hsel (by intro a b; left; rfl) i j
  rw [hlen] at hrange
  rcases fillLoop_value B st.origins rng (rowMajor N) _ s hfill i j with h1 | ⟨r, hr, h1⟩
  · rw [h1] at hns ⊢
    dsimp only at hns ⊢
    rcases hrange with h2 | h2
    · exact absurd h2 hns
    · omega
  · rw [h1]
    have hrlt := (tiedIndices_spec hr).1
    rw [hlen] at hrlt
    have hr0 : r = 0 := by omega
    subst hr0
    exact_mod_cast rfl

/-- Witness for C7 on the concrete single-grain lattice LB. -/
theorem C7_witness : LB.cell 0 1 = 0 ∧ LB.cell 1 1 = 0 :=
  ⟨C7_single_grain 2 1 basisId rng0 1 LB 0 1 rfl (by decide) (by decide),
   C7_single_grain 2 1 basisId rng0 1 LB 1 1 rfl (by decide) (by decide)⟩

/-- Claim C8: the boundary list never has more entries than there are lattice
cells, and on a uniformly labelled lattice it is empty. -/
theorem C8_bound_and_uniform (L : Lattice) (f : NNF) (v : ℤ) :
    (find_boundaries L f).length ≤ L.size * L.size ∧
    ((∀ i, i < L.size → ∀ j, j < L.size → L.cell i j = v) →
      find_boundaries L f = []) := by
  constructor
  · rw [fb_eq_spec]
    unfold boundarySpec
    calc (List.filter _ (rowMajor L.size)).length
        ≤ (rowMajor L.size).length := List.length_filter_le _ _
      _ = L.size * L.size := length_rowMajor L.size
  · intro hu
    rw [fb_eq_spec]
    unfold boundarySpec
    rw [List.filter_eq_nil_iff]
    rintro ⟨i, j⟩ hp
    simp only [decide_eq_true_eq]
    rintro ⟨q, hq, hne⟩
    have hij := mem_rowMajor.mp hp
    have hs : 0 < L.size := by omega
    rcases List.mem_map.mp (mem_specNeighbors.mp hq) with ⟨z, _, rfl⟩
    have hqb := clampCoord_lt hs z
    have h1 := hu _ hqb.1 _ hqb.2
    have h2 := hu i hij.1 j hij.2
    exact hne (by rw [h1, h2])

/-- Witness for C8 on the uniformly labelled lattice LU. -/
theorem C8_witness :
    (find_boundaries LU vonNeumann).length ≤ 2 * 2 ∧
    find_boundaries LU vonNeumann = [] := by
  have h := C8_bound_and_uniform LU vonNeumann 5
  exact ⟨h.1, h.2 (by decide)⟩

/-- Claim C9: boundary detection is deterministic and consumes no randomness:
under the stream-threading convention its result does not depend on the
stream or the draw counter, and the counter is returned unchanged, so a
second call on the same fixed lattice returns the identical list. In the
embedding this is structural, because the body of find_boundaries contains no
call into np.random. -/
theorem C9_deterministic (L : Lattice) (f : NNF) (rng rng2 : ℕ → ℕ) (k k2 : ℕ) :
    (find_boundariesS L f rng k).1 = (find_boundariesS L f rng2 k2).1 ∧
    (find_boundariesS L f rng k).2 = k :=
  ⟨rfl, rfl⟩

/-- Claim C10: every neighbor coordinate actually scanned by find_boundaries
(a member of the clamped de-duplicated neighbor set of an in-range cell) lies
inside the lattice bounds, for every neighbor function, including functions
returning negative or arbitrarily large components; hence no lattice access
of the scan is out of bounds. -/
theorem C10_access_in_bounds (size : ℕ) (f : NNF) (i j : ℕ) (q : Coord)
    (hi : i < size) (hq : q ∈ neighborsOf size f (i, j)) :
    q.1 < size ∧ q.2 < size := by
  rcases List.mem_map.mp (mem_neighborsOf.mp hq) with ⟨z, _, rfl⟩
  exact clampCoord_lt (by omega) z

/-- Witness for C10: the wildly out-of-range neighbor (-5, 100) of (0, 0) on
a 2 x 2 lattice is clamped to (0, 1), which is inside bounds. -/
theorem C10_witness :
    (((0 : ℕ), (1 : ℕ)) ∈ neighborsOf 2 fWild (0, 0)) ∧
    ((0 : ℕ), (1 : ℕ)).1 < 2 ∧ ((0 : ℕ), (1 : ℕ)).2 < 2 :=
  ⟨by decide, C10_access_in_bounds 2 fWild 0 0 ((0 : ℕ), (1 : ℕ)) (by decide) (by decide)⟩


/-- Witness for C5 on the concrete lattice LS with the notebook neighbor
function. -/
theorem C5_witness :
    find_boundaries LS vonNeumann = boundarySpec LS vonNeumann ∧
    (((0, 1) : Coord) ∈ find_boundaries LS vonNeumann ↔
      ((0, 1) : Coord) ∈ rowMajor LS.size ∧ IsBoundaryCell LS vonNeumann (0, 1)) :=
  ⟨(C5_boundaries_exact LS vonNeumann).1, (C5_boundaries_exact LS vonNeumann).2.2 (0, 1)⟩

/-- Witness for C9 on the concrete lattice LU with two different streams and
counters. -/
theorem C9_witness :
    (find_boundariesS LU vonNeumann rng0 7).1 = (find_boundariesS LU vonNeumann rng1 3).1 ∧
    (find_boundariesS LU vonNeumann rng0 7).2 = 7 :=
  C9_deterministic LU vonNeumann rng0 rng1 7 3

end QStates

